import Mathlib

/-!
Shallow embedding of the diffgraph core (src/parser.rs, src/graph.rs,
src/grammars.rs) together with proofs about the claims of its
specification.  Pure functions of the Rust source are translated into
Lean functions; the iterator state of `LineByteCounter` and of the
tree cursor become explicit state passing; fallible Rust code
(`Result<_, String>`) becomes `Except String _`.
-/

namespace Diffgraph

/-- Decidable equality for `Except`, used to evaluate the translation on
concrete inputs. -/
instance {ε α : Type _} [DecidableEq ε] [DecidableEq α] : DecidableEq (Except ε α) := fun x y =>
  match x, y with
  | .error a, .error b =>
    if h : a = b then .isTrue (by rw [h]) else .isFalse (fun hc => by cases hc; exact h rfl)
  | .ok a, .ok b =>
    if h : a = b then .isTrue (by rw [h]) else .isFalse (fun hc => by cases hc; exact h rfl)
  | .error _, .ok _ => .isFalse (fun hc => by cases hc)
  | .ok _, .error _ => .isFalse (fun hc => by cases hc)

/-! ### Lines of a source text

`str::lines` in Rust splits on `'\n'`, strips a trailing `'\r'` from
each line, and does not produce a final empty line for a trailing
newline.  `LineByteCounter::new` consumes `content.lines()`.
-/

/-- Split a character list at every occurrence of a separator; the
separator is consumed.  A trailing separator yields a final empty
segment. -/
def splitSep (sep : Char) : List Char → List (List Char)
  | [] => [[]]
  | c :: cs =>
    if c = sep then [] :: splitSep sep cs
    else
      match splitSep sep cs with
      | [] => [[c]]
      | l :: ls => (c :: l) :: ls

/-- Split a character list at every newline character. -/
def splitNl : List Char → List (List Char) := splitSep '\n'

/-- Drop a single trailing carriage return, as `str::lines` does. -/
def stripCr (l : List Char) : List Char :=
  if l.getLast? = some '\r' then l.dropLast else l

/-- The lines of a string, as produced by Rust `str::lines`. -/
def rustLines (s : String) : List String :=
  let segs := splitNl s.data
  let segs := if segs.getLast? = some [] then segs.dropLast else segs
  segs.map (fun l => String.mk (stripCr l))

/-! ### LineByteCounter (src/parser.rs lines 8-53) -/

/-- State of `LineByteCounter`: the running byte count, the remaining
(unconsumed) lines of the source, and the cache of `(byteOffset, line)`
pairs produced so far. -/
structure LineByteCounter where
  byte_count : Nat
  lines : List String
  cache : List (Nat × String)
deriving Repr, DecidableEq

/-- `LineByteCounter::new` over a source text. -/
def LineByteCounter.new (content : String) : LineByteCounter :=
  { byte_count := 0, lines := rustLines content, cache := [] }

/-- `LineByteCounter::get`: a pure cache read at index `line_num`. -/
def LineByteCounter.get (c : LineByteCounter) (line_num : Nat) : Option (Nat × String) :=
  c.cache.get? line_num

/-- `LineByteCounter::last_in_cache`: the last cached pair together with
its cache index. -/
def LineByteCounter.last_in_cache (c : LineByteCounter) : Option (Nat × Nat × String) :=
  match c.cache.getLast? with
  | some last => some (c.cache.length - 1, last.1, last.2)
  | none => none

/-- One step of the `Iterator` impl for `LineByteCounter`: consume a
line, return its `(byteOffset, line)` pair, advance the byte count by
the line's UTF-8 byte length plus one newline byte, and append the pair
to the cache. -/
def LineByteCounter.next (c : LineByteCounter) : Option ((Nat × String) × LineByteCounter) :=
  match c.lines with
  | [] => none
  | line :: rest =>
    let item := (c.byte_count, line)
    some (item,
      { byte_count := c.byte_count + line.utf8ByteSize + 1,
        lines := rest,
        cache := c.cache ++ [item] })

/-! ### The unidiff data model consumed by `Diff::from_patch_file` -/

/-- Kind of a diff line: `LINE_TYPE_ADDED`, `LINE_TYPE_REMOVED`,
`LINE_TYPE_CONTEXT`, or any other marker (matched by `_ => continue`). -/
inductive LineType where
  | added | removed | context | other
deriving Repr, DecidableEq

/-- One line of a hunk as exposed by the unidiff crate.  `value` is the
line's literal text without its `+`/`-`/space marker and without a
trailing newline (unidiff parses the patch with `str::lines`). -/
structure Line where
  line_type : LineType
  source_line_no : Option Nat
  target_line_no : Option Nat
  diff_line_no : Nat
  value : String
deriving Repr, DecidableEq

/-- One hunk: its declared source start line and its ordered lines. -/
structure Hunk where
  source_start : Nat
  lines : List Line
deriving Repr, DecidableEq

/-- tree_sitter `Point`. -/
structure Point where
  row : Nat
  column : Nat
deriving Repr, DecidableEq

/-- tree_sitter `InputEdit`. -/
structure InputEdit where
  start_byte : Nat
  old_end_byte : Nat
  new_end_byte : Nat
  start_position : Point
  old_end_position : Point
  new_end_position : Point
deriving Repr, DecidableEq

/-! ### Edit derivation (src/parser.rs lines 111-176) -/

/-- The `for _ in 0..iterations_to_go` loop of the uncached lookup: each
iteration advances the counter and overwrites `item`; when the counter
is exhausted the whole translation fails. -/
def advanceLoop : Nat → LineByteCounter → Option (Nat × String) →
    Except String (Option (Nat × String) × LineByteCounter)
  | 0, c, item => .ok (item, c)
  | n + 1, c, _ =>
    match c.next with
    | some (it, c2) => advanceLoop n c2 (some it)
    | none => .error "Line counter could not iterate, ran out of lines"

/-- The lookup block of `Diff::from_patch_file` (lines 120-142): return
the cached pair at index `source_line_no` if present; otherwise compute
`iterations_to_go` from `last_source_context_line` and the last cached
index and advance the counter that many times.  Note the subtraction
`last_source_context_line + 1 - last.0` is on `usize`; it is modelled
with truncated `Nat` subtraction. -/
def fetchLine (c : LineByteCounter) (last_source_context_line : Nat)
    (source_line_no : Nat) : Except String ((Nat × String) × LineByteCounter) :=
  match c.get source_line_no with
  | some cached => .ok (cached, c)
  | none =>
    let start : Option (Nat × String) × Nat :=
      match c.last_in_cache with
      | some last => (some (last.2.1, last.2.2), last_source_context_line + 1 - last.1)
      | none => (none, last_source_context_line + 1)
    match advanceLoop start.2 c start.1 with
    | .error e => .error e
    | .ok (some item, c2) => .ok (item, c2)
    | .ok (none, _) => .error "Unable to determine line start byte count for source line"

/-- The state threaded through the hunk-line loop of
`Diff::from_patch_file`: the line counter, `last_source_context_line`,
and the edits accumulated so far. -/
structure TransState where
  counter : LineByteCounter
  last_source_context_line : Nat
  edits : List InputEdit
deriving Repr, DecidableEq

/-- The body of the `for line in hunk.lines()` loop (lines 117-173).
Added and removed lines that carry a source line number look up that
line's byte pair and push an `InputEdit`; ones without a source line
number fall into the empty `else` branch and do nothing.  Context lines
update `last_source_context_line` and require a source line number.
The `assert_eq!(source_line_no - 1, last_source_context_line)` of the
pure-deletion row computation is modelled as an error (in Rust it
panics). -/
def processLine (st : TransState) (line : Line) : Except String TransState :=
  match line.line_type with
  | .added | .removed =>
    match line.source_line_no with
    | some source_line_no =>
      match fetchLine st.counter st.last_source_context_line source_line_no with
      | .error e => .error e
      | .ok ((start_byte, source_line_str), counter2) =>
        let old_end_byte := start_byte + source_line_str.utf8ByteSize
        let new_end_byte := start_byte + line.value.utf8ByteSize
        let row : Except String Nat :=
          match line.target_line_no with
          | some new_end_row => .ok new_end_row
          | none =>
            if source_line_no - 1 = st.last_source_context_line then .ok (source_line_no - 1)
            else .error "assertion failed: source_line_no - 1 == last_source_context_line"
        match row with
        | .error e => .error e
        | .ok new_end_row =>
          .ok { counter := counter2,
                last_source_context_line := source_line_no,
                edits := st.edits ++
                  [{ start_byte := start_byte,
                     old_end_byte := old_end_byte,
                     new_end_byte := new_end_byte,
                     start_position := { row := source_line_no, column := 0 },
                     old_end_position := { row := source_line_no, column := source_line_str.length },
                     new_end_position := { row := new_end_row, column := line.value.length } }] }
    | none => .ok st
  | .context =>
    match line.source_line_no with
    | some source_line_no => .ok { st with last_source_context_line := source_line_no }
    | none => .error "Context line in patch requires source line"
  | .other => .ok st

/-- Fold `processLine` over the lines of a hunk. -/
def processLines (st : TransState) : List Line → Except String TransState
  | [] => .ok st
  | l :: rest =>
    match processLine st l with
    | .error e => .error e
    | .ok st2 => processLines st2 rest

/-- Process one hunk: `last_source_context_line` is seeded from the
hunk's declared source start; the counter and the edit list persist
across hunks. -/
def processHunk (counter : LineByteCounter) (edits : List InputEdit) (h : Hunk) :
    Except String TransState :=
  processLines { counter := counter, last_source_context_line := h.source_start, edits := edits }
    h.lines

/-- Fold over all hunks of a patch file. -/
def processHunks (counter : LineByteCounter) (edits : List InputEdit) :
    List Hunk → Except String (LineByteCounter × List InputEdit)
  | [] => .ok (counter, edits)
  | h :: rest =>
    match processHunk counter edits h with
    | .error e => .error e
    | .ok st => processHunks st.counter st.edits rest

/-- The edit-derivation part of `Diff::from_patch_file`: create a
`LineByteCounter` over the loaded source and run the hunk loop. -/
def deriveEdits (source : String) (hunks : List Hunk) : Except String (List InputEdit) :=
  match processHunks (LineByteCounter.new source) [] hunks with
  | .error e => .error e
  | .ok (_, edits) => .ok edits

/-! ### Syntax trees

A concrete syntax tree as surfaced to this program by tree-sitter: every
node has a kind id, a byte range, and an ordered list of children. -/

/-- A rose tree standing for a tree-sitter syntax tree. -/
inductive RTree where
  | node (kind_id : Nat) (range_start : Nat) (range_stop : Nat) (children : List RTree)

mutual

/-- Decidable equality of trees. -/
def RTree.decEq : (a b : RTree) → Decidable (a = b)
  | .node k1 s1 e1 c1, .node k2 s2 e2 c2 =>
    if hk : k1 = k2 then
      if hs : s1 = s2 then
        if he : e1 = e2 then
          match RTree.decEqList c1 c2 with
          | .isTrue hc => .isTrue (by rw [hk, hs, he, hc])
          | .isFalse hc => .isFalse (fun h => by injection h with h1 h2 h3 h4; exact hc h4)
        else .isFalse (fun h => by injection h with h1 h2 h3 h4; exact he h3)
      else .isFalse (fun h => by injection h with h1 h2 h3 h4; exact hs h2)
    else .isFalse (fun h => by injection h with h1 h2 h3 h4; exact hk h1)

/-- Decidable equality of forests. -/
def RTree.decEqList : (a b : List RTree) → Decidable (a = b)
  | [], [] => .isTrue rfl
  | [], _ :: _ => .isFalse (fun h => by cases h)
  | _ :: _, [] => .isFalse (fun h => by cases h)
  | x :: xs, y :: ys =>
    match RTree.decEq x y, RTree.decEqList xs ys with
    | .isTrue h1, .isTrue h2 => .isTrue (by rw [h1, h2])
    | .isFalse h1, _ => .isFalse (fun h => by injection h with ha hb; exact h1 ha)
    | _, .isFalse h2 => .isFalse (fun h => by injection h with ha hb; exact h2 hb)

end

instance : DecidableEq RTree := RTree.decEq

/-! ### Language resolution (src/grammars.rs lines 249-254) -/

/-- The extension of a file path: the segment after the last dot. -/
def pathExtension (path : String) : String :=
  match (splitSep '.' path.data).getLast? with
  | some ext => String.mk ext
  | none => path

/-- Modelled from the spec: the external `tree_sitter_loader` call
`Loader::language_configuration_for_file_name`, which is not part of
this repository.  Per the spec it "matches by file type/extension
against discovered grammars; returns none (not an error) when
unmatched".  The discovered grammars are a list of
`(extension, language)` pairs; languages are opaque and stand in as
natural numbers. -/
def loaderResolve (grammars : List (String × Nat)) (path : String) :
    Except String (Option Nat) :=
  .ok ((grammars.find? (fun g => g.1 == pathExtension path)).map (fun g => g.2))

/-- `Grammars::try_get_language`: forward the loader's answer, turning a
loader error into a string error and keeping `None` as a non-error. -/
def Grammars.try_get_language (resolve : String → Except String (Option Nat)) (path : String) :
    Except String (Option Nat) :=
  match resolve path with
  | .error e => .error e
  | .ok (some lang) => .ok (some lang)
  | .ok none => .ok none

/-! ### The per-file pipeline (src/parser.rs lines 92-269) -/

/-- `get_fs_file_path`: strip a leading `a/` or `b/` diff prefix. -/
def get_fs_file_path (patch_file_path : String) : String :=
  match patch_file_path.data with
  | 'a' :: '/' :: rest => String.mk rest
  | 'b' :: '/' :: rest => String.mk rest
  | _ => patch_file_path

/-- A file entry of the parsed unified diff (unidiff `PatchedFile`). -/
structure PatchedFile where
  source_file : String
  target_file : String
  hunks : List Hunk
deriving Repr, DecidableEq

/-- The external effects of the pipeline, made explicit: the
filesystem (`try_load_file_from`), the grammar loader
(`Loader::language_configuration_for_file_name`), the tree-sitter
parse (`Parser::parse`, `None` on timeout or failure), the structural
`Tree::edit` operation, and the effects of `Grammars::load` and
`Grammars::try_install_languages`. -/
structure Env where
  fs : String → Except String String
  resolve : String → Except String (Option Nat)
  parseTree : Nat → String → Except String (Option RTree)
  treeEdit : RTree → InputEdit → RTree
  grammarsLoad : Except String Unit
  installLanguages : Except String Unit

/-- One file's translated diff (`Diff` in src/parser.rs). -/
structure Diff where
  source : String
  source_file : String
  target_file : String
  source_file_path : String
  edits : List InputEdit
  tree : RTree
  language : Nat
deriving DecidableEq

/-- `Diff::from_patch_file`: load the source file, derive the edits
from the hunks, resolve the language (an unresolved language is a
fatal error), and parse the full source into a tree. -/
def Diff.from_patch_file (env : Env) (patch_file : PatchedFile) : Except String Diff :=
  let source_file_path := get_fs_file_path patch_file.source_file
  match env.fs source_file_path with
  | .error e => .error e
  | .ok source =>
    match deriveEdits source patch_file.hunks with
    | .error e => .error e
    | .ok edits =>
      match Grammars.try_get_language env.resolve source_file_path with
      | .error e => .error e
      | .ok none =>
        .error ("Unable to determine language using tree-sitter parsers for file "
          ++ source_file_path)
      | .ok (some lang) =>
        match env.parseTree lang source with
        | .error e => .error e
        | .ok none => .error ("Unable to parse patch file: " ++ patch_file.source_file)
        | .ok (some tree) =>
          .ok { source := source,
                source_file := patch_file.source_file,
                target_file := patch_file.target_file,
                source_file_path := source_file_path,
                edits := edits,
                tree := tree,
                language := lang }

/-- `Diff::try_apply_edits`: clone the stored tree, apply every edit to
the clone strictly in list order, and return the clone; the `Diff`
itself is left as it was (the second component is the final value of
`self`). -/
def Diff.try_apply_edits (env : Env) (d : Diff) : Except String (RTree × Diff) :=
  let tree := d.edits.foldl (fun t e => env.treeEdit t e) d.tree
  .ok (tree, d)

/-- The per-file loop of `try_parse_patch`: process files in order,
returning the first error without touching later files; the tree
returned by `try_apply_edits` is bound to an unused variable and
discarded. -/
def try_parse_patch_go (env : Env) : List PatchedFile → Except String (List Diff)
  | [] => .ok []
  | pf :: rest =>
    match Diff.from_patch_file env pf with
    | .error e => .error e
    | .ok diff =>
      match Diff.try_apply_edits env diff with
      | .error e => .error e
      | .ok (_diff_tree, diff2) =>
        match try_parse_patch_go env rest with
        | .error e => .error e
        | .ok ds => .ok (diff2 :: ds)

/-- `try_parse_patch`: load the grammars, optionally install missing
languages, then process every file of the patch. -/
def try_parse_patch (env : Env) (files : List PatchedFile)
    (install_lang_if_missing : Bool) : Except String (List Diff) :=
  match env.grammarsLoad with
  | .error e => .error e
  | .ok _ =>
    match (if install_lang_if_missing then env.installLanguages else .ok ()) with
    | .error e => .error e
    | .ok _ => try_parse_patch_go env files

/-! ### Graph building (src/graph.rs) -/

/-- Projections of a tree node. -/
def RTree.kind_id : RTree → Nat
  | .node k _ _ _ => k

/-- Start of the node's byte range. -/
def RTree.range_start : RTree → Nat
  | .node _ s _ _ => s

/-- Stop of the node's byte range. -/
def RTree.range_stop : RTree → Nat
  | .node _ _ e _ => e

/-- Children of a tree node. -/
def RTree.children : RTree → List RTree
  | .node _ _ _ cs => cs

mutual

/-- Number of nodes of a tree. -/
def RTree.size : RTree → Nat
  | .node _ _ _ cs => 1 + RTree.sizeList cs

/-- Number of nodes of a forest. -/
def RTree.sizeList : List RTree → Nat
  | [] => 0
  | t :: ts => RTree.size t + RTree.sizeList ts

end

/-- `NodeInfo` (graph.rs lines 24-29): the snapshot a graph vertex
carries.  A tree-sitter node id is stable and unique within its tree;
it is modelled by the node's path of child indices from the root. -/
structure NodeInfo where
  id : List Nat
  kind_id : Nat
  range_start : Nat
  range_stop : Nat
deriving Repr, DecidableEq

/-- `Edge` (graph.rs lines 31-35); the Rust fields `from` and `to` are
Lean keywords and appear here as `from_node` and `to_node`. -/
structure GEdge where
  from_node : NodeInfo
  to_node : NodeInfo
deriving Repr, DecidableEq

/-- One suspended level of a `TreeCursor`: the parent node's own data
together with the already-passed left siblings (reversed) and the
remaining right siblings of the focus. -/
structure Frame where
  kind_id : Nat
  range_start : Nat
  range_stop : Nat
  leftRev : List RTree
  right : List RTree
deriving DecidableEq

/-- A `TreeCursor`: the focused subtree and the stack of suspended
levels, innermost first. -/
structure Cursor where
  focus : RTree
  frames : List Frame
deriving DecidableEq

/-- The cursor at the root of a tree (`tree.walk()`). -/
def Cursor.root (t : RTree) : Cursor := ⟨t, []⟩

/-- `TreeCursor::goto_first_child`. -/
def Cursor.goto_first_child (c : Cursor) : Option Cursor :=
  match c.focus with
  | .node k s e (ch :: chs) => some ⟨ch, ⟨k, s, e, [], chs⟩ :: c.frames⟩
  | .node _ _ _ [] => none

/-- `TreeCursor::goto_next_sibling`. -/
def Cursor.goto_next_sibling (c : Cursor) : Option Cursor :=
  match c.frames with
  | f :: fs =>
    match f.right with
    | x :: xs =>
      some ⟨x, ⟨f.kind_id, f.range_start, f.range_stop, c.focus :: f.leftRev, xs⟩ :: fs⟩
    | [] => none
  | [] => none

/-- `TreeCursor::goto_parent`. -/
def Cursor.goto_parent (c : Cursor) : Option Cursor :=
  match c.frames with
  | f :: fs =>
    some ⟨.node f.kind_id f.range_start f.range_stop (f.leftRev.reverse ++ c.focus :: f.right), fs⟩
  | [] => none

/-- Path of child indices leading to the focus of a cursor with the
given frame stack. -/
def pathOfFrames (fs : List Frame) : List Nat :=
  (fs.map (fun f => f.leftRev.length)).reverse

/-- Path of the focused node. -/
def Cursor.path (c : Cursor) : List Nat := pathOfFrames c.frames

/-- `NodeInfo::from_ts_node` applied to the focused node. -/
def Cursor.info (c : Cursor) : NodeInfo :=
  { id := c.path, kind_id := c.focus.kind_id,
    range_start := c.focus.range_start, range_stop := c.focus.range_stop }

/-- The `loop` of `TreeIterator::next` (graph.rs lines 96-104): climb
with `goto_parent` until either a parent has a next sibling (stop
there) or the root is passed (stay at the root and report the
traversal finished).  The boolean is the final `traversed` flag. -/
def climbAux : RTree → List Frame → Cursor × Bool
  | t, [] => (⟨t, []⟩, true)
  | t, f :: fs =>
    let parent : Cursor :=
      ⟨.node f.kind_id f.range_start f.range_stop (f.leftRev.reverse ++ t :: f.right), fs⟩
    match parent.goto_next_sibling with
    | some c2 => (c2, false)
    | none => climbAux parent.focus fs

/-- The climb loop started from a cursor. -/
def Cursor.climb (c : Cursor) : Cursor × Bool := climbAux c.focus c.frames

/-- `TreeIterator` state: the walker and the `traversed` flag. -/
structure TreeIter where
  walker : Cursor
  traversed : Bool
deriving DecidableEq

/-- `TreeIterator::new`. -/
def TreeIter.new (t : RTree) : TreeIter := ⟨Cursor.root t, false⟩

/-- One call of `TreeIterator::next`: `None` once `traversed` is set;
otherwise move to the first child, else the next sibling, else climb —
and in every one of these three cases invoke the relation callback
with the yielded node and the walker's new node.  The result is the
callback pair together with the new iterator state. -/
def TreeIter.next (it : TreeIter) : Option ((NodeInfo × NodeInfo) × TreeIter) :=
  if it.traversed then none
  else
    let node := it.walker.info
    match it.walker.goto_first_child with
    | some c2 => some ((node, c2.info), ⟨c2, false⟩)
    | none =>
      match it.walker.goto_next_sibling with
      | some c2 => some ((node, c2.info), ⟨c2, false⟩)
      | none =>
        let r := it.walker.climb
        some ((node, r.1.info), ⟨r.1, r.2⟩)

/-- Drive the iterator for at most `fuel` calls, collecting the
callback pairs in call order. -/
def TreeIter.run : Nat → TreeIter → List (NodeInfo × NodeInfo)
  | 0, _ => []
  | fuel + 1, it =>
    match it.next with
    | none => []
    | some (pair, it2) => pair :: TreeIter.run fuel it2

/-- The petgraph `DiGraphMap`: a node list without duplicates in
insertion order, and an edge list keyed by the ordered endpoint pair
(no parallel edges; self-loops allowed; inserting an existing key
replaces the weight). -/
structure Graph where
  nodes : List (List Nat)
  edges : List ((List Nat × List Nat) × GEdge)
deriving DecidableEq

/-- The empty graph (`DiGraphMap::new`). -/
def Graph.empty : Graph := ⟨[], []⟩

/-- `add_node`: insert the id if it is not present. -/
def Graph.add_node (g : Graph) (id : List Nat) : Graph :=
  if id ∈ g.nodes then g else { g with nodes := g.nodes ++ [id] }

/-- `add_edge`: ensure both endpoints are nodes, then insert or replace
the edge keyed by the ordered pair. -/
def Graph.add_edge (g : Graph) (a b : List Nat) (e : GEdge) : Graph :=
  let g2 := (g.add_node a).add_node b
  if (a, b) ∈ g2.edges.map Prod.fst then
    { g2 with edges := g2.edges.map (fun p => if p.1 = (a, b) then (p.1, e) else p) }
  else
    { g2 with edges := g2.edges ++ [((a, b), e)] }

/-- Number of nodes. -/
def Graph.node_count (g : Graph) : Nat := g.nodes.length

/-- Number of edges. -/
def Graph.edge_count (g : Graph) : Nat := g.edges.length

/-- The `while dfs.next().is_some()` loop of `create_graph_from_diffs`
for one tree: drive the iterator to exhaustion (`RTree.size t + 1`
calls suffice, proved below) and fold the relation callback — add both
endpoint nodes, then the edge built from the two node snapshots — over
the emitted pairs in order. -/
def graphOfTree (g : Graph) (t : RTree) : Graph :=
  (TreeIter.run (t.size + 1) (TreeIter.new t)).foldl
    (fun g p => g.add_edge p.1.id p.2.id { from_node := p.1, to_node := p.2 }) g

/-- `DiffGraph::create_graph_from_diffs`: every diff's tree contributes
its traversal to one shared graph. -/
def create_graph_from_diffs (diffs : List Diff) : Graph :=
  diffs.foldl (fun g d => graphOfTree g d.tree) Graph.empty

/-- The aggregate result of `DiffGraph::create`. -/
structure DiffGraphResult where
  graph : Graph
  diffs : List Diff

/-- `DiffGraph::create`: parse the patch; on failure return the error
and no graph, otherwise build the shared graph from all diffs. -/
def DiffGraph.create (env : Env) (files : List PatchedFile) (install_lang_if_missing : Bool) :
    Except String DiffGraphResult :=
  match try_parse_patch env files install_lang_if_missing with
  | .error e => .error e
  | .ok diffs => .ok { graph := create_graph_from_diffs diffs, diffs := diffs }

/-! ### Pre-order reference semantics

These definitions state what the traversal is expected to produce and
are compared with the cursor-driven iterator in the theorems below. -/

mutual

/-- The pre-order listing of the node snapshots of a subtree whose root
sits at path `p`. -/
def preorderInfo (p : List Nat) : RTree → List NodeInfo
  | .node k s e cs =>
    { id := p, kind_id := k, range_start := s, range_stop := e } :: preorderInfoList p 0 cs

/-- The pre-order listing of a forest of subtrees, the first of which
is child `i` of the node at path `p`. -/
def preorderInfoList (p : List Nat) (i : Nat) : List RTree → List NodeInfo
  | [] => []
  | t :: ts => preorderInfo (p ++ [i]) t ++ preorderInfoList p (i + 1) ts

end

/-- Reassemble the whole tree a cursor is walking from its focus and
frame stack. -/
def rebuildAux : RTree → List Frame → RTree
  | t, [] => t
  | t, f :: fs =>
    rebuildAux (.node f.kind_id f.range_start f.range_stop (f.leftRev.reverse ++ t :: f.right)) fs

/-- The tree a cursor belongs to. -/
def Cursor.rebuild (c : Cursor) : RTree := rebuildAux c.focus c.frames

/-- The pre-order listing of everything that follows the focused
subtree: at each suspended level, the right siblings' subtrees in
order, innermost level first. -/
def restAfter : List Frame → List NodeInfo
  | [] => []
  | f :: fs =>
    preorderInfoList (pathOfFrames fs) (f.leftRev.length + 1) f.right ++ restAfter fs

/-- The nodes a pre-order traversal has yet to visit from a cursor,
starting with the focused node itself. -/
def Cursor.rem (c : Cursor) : List NodeInfo :=
  preorderInfo c.path c.focus ++ restAfter c.frames

/-- The callback pairs the iterator emits over a whole tree: each node
paired with its pre-order successor, and the last node paired with the
root (a self-loop for a one-node tree). -/
def traversalPairs (t : RTree) : List (NodeInfo × NodeInfo) :=
  (preorderInfo [] t).zip ((preorderInfo [] t).tail ++ [(Cursor.root t).info])

/-! ### Auxiliary semantic definitions -/

/-- The value `last_source_context_line` holds after a run of lines,
each contributing its source line number when it has one. -/
def lastCtxAfter (c : Nat) : List Line → Nat
  | [] => c
  | l :: rest => lastCtxAfter (l.source_line_no.getD c) rest

/-- Byte offset of line `n` (1-based) of a line list: the byte lengths
of all preceding lines plus one newline byte per preceding line. -/
def lineOffset (lines : List String) (n : Nat) : Nat :=
  ((lines.take (n - 1)).map (fun l => l.utf8ByteSize + 1)).sum

/-! ### Concrete instances used by the claims -/

/-- Source text of the end-to-end example: lines `a`, `b`, `c`. -/
def exSource : String := "a\nb\nc\n"

/-- The hunk changing line 2 from `b` to `b2`. -/
def exHunk : Hunk :=
  { source_start := 1,
    lines :=
     [{ line_type := .context, source_line_no := some 1, target_line_no := some 1,
        diff_line_no := 1, value := "a" },
      { line_type := .removed, source_line_no := some 2, target_line_no := none,
        diff_line_no := 2, value := "b" },
      { line_type := .added, source_line_no := none, target_line_no := some 2,
        diff_line_no := 3, value := "b2" }] }

/-- The single edit the translation produces for `exHunk`. -/
def exEdit : InputEdit :=
  { start_byte := 2, old_end_byte := 3, new_end_byte := 3,
    start_position := { row := 2, column := 0 },
    old_end_position := { row := 2, column := 1 },
    new_end_position := { row := 1, column := 1 } }

/-- Source with four lines, used by the two-line deletion example. -/
def delSource : String := "a\nb\nc\nd\n"

/-- The same source with only three lines. -/
def delSourceShort : String := "a\nb\nc\n"

/-- An ordinary two-line deletion: context line 1, removal of lines
2 and 3. -/
def delHunk : Hunk :=
  { source_start := 1,
    lines :=
     [{ line_type := .context, source_line_no := some 1, target_line_no := some 1,
        diff_line_no := 1, value := "a" },
      { line_type := .removed, source_line_no := some 2, target_line_no := none,
        diff_line_no := 2, value := "b" },
      { line_type := .removed, source_line_no := some 3, target_line_no := none,
        diff_line_no := 3, value := "c" }] }

/-- The edit emitted for the removal of source line 3 in `delHunk`:
its byte fields come from line 4 (`d`, offset 6), not line 3. -/
def delEdit2 : InputEdit :=
  { start_byte := 6, old_end_byte := 7, new_end_byte := 7,
    start_position := { row := 3, column := 0 },
    old_end_position := { row := 3, column := 1 },
    new_end_position := { row := 2, column := 1 } }

/-- A hunk whose only entry is a pure single-line addition. -/
def addHunk : Hunk :=
  { source_start := 1,
    lines :=
     [{ line_type := .added, source_line_no := none, target_line_no := some 2,
        diff_line_no := 1, value := "x" }] }

/-- A three-node tree: a root with two leaf children. -/
def testTree : RTree := .node 7 0 5 [.node 8 0 2 [], .node 9 3 5 []]

/-- A single-node tree. -/
def oneTree : RTree := .node 4 0 2 []

/-- A concrete environment for evaluating the pipeline: one source
file, a grammar registered for extension `c`, a parse producing
`testTree`, and an identity tree edit. -/
def testEnv : Env :=
  { fs := fun path => if path = "bad.c" then .error "missing file" else .ok exSource,
    resolve := loaderResolve [("c", 5)],
    parseTree := fun _ source => if source = exSource then .ok (some testTree) else .ok none,
    treeEdit := fun t _ => t,
    grammarsLoad := .ok (),
    installLanguages := .ok () }

/-- A diff file entry over `exHunk` with conventional `a/`/`b/`
prefixes. -/
def testFile : PatchedFile :=
  { source_file := "a/m.c", target_file := "b/m.c", hunks := [exHunk] }

/-- A file entry whose on-disk file is missing in `testEnv`. -/
def testFileBad : PatchedFile :=
  { source_file := "a/bad.c", target_file := "b/bad.c", hunks := [] }

/-- A file entry whose extension matches no grammar of `testEnv`. -/
def testFilePy : PatchedFile :=
  { source_file := "a/m.py", target_file := "b/m.py", hunks := [] }

/-- The diff produced for `testFile` in `testEnv`. -/
def testDiff : Diff :=
  { source := exSource, source_file := "a/m.c", target_file := "b/m.c",
    source_file_path := "m.c", edits := [exEdit], tree := testTree, language := 5 }

/-! ## Helper lemmas about the hunk-line loop -/

theorem processLine_skip (st : TransState) (line : Line)
    (hty : line.line_type = .added ∨ line.line_type = .removed)
    (hsrc : line.source_line_no = none) :
    processLine st line = .ok st := by
  rcases hty with h | h <;> simp [processLine, h, hsrc]

theorem processLine_ctx (st : TransState) (line : Line) (L : Nat)
    (hty : line.line_type = .context) (hsrc : line.source_line_no = some L) :
    processLine st line = .ok { st with last_source_context_line := L } := by
  simp [processLine, hty, hsrc]

theorem processLine_ctx_missing (st : TransState) (line : Line)
    (hty : line.line_type = .context) (hsrc : line.source_line_no = none) :
    processLine st line = .error "Context line in patch requires source line" := by
  simp [processLine, hty, hsrc]

theorem lastCtxAfter_append (c : Nat) (xs ys : List Line) :
    lastCtxAfter c (xs ++ ys) = lastCtxAfter (lastCtxAfter c xs) ys := by
  induction xs generalizing c with
  | nil => rfl
  | cons x xs ih => simp [lastCtxAfter, ih]

theorem processLines_ctx_only (lines : List Line) :
    ∀ st : TransState, (∀ l ∈ lines, l.line_type = .context ∧ l.source_line_no ≠ none) →
    processLines st lines =
      .ok { counter := st.counter,
            last_source_context_line := lastCtxAfter st.last_source_context_line lines,
            edits := st.edits } := by
  induction lines with
  | nil => intro st _; simp [processLines, lastCtxAfter]
  | cons l rest ih =>
    intro st hall
    obtain ⟨hty, hsome⟩ := hall l (by simp)
    obtain ⟨L, hL⟩ := Option.ne_none_iff_exists'.mp hsome
    have hrest : ∀ x ∈ rest, x.line_type = .context ∧ x.source_line_no ≠ none :=
      fun x hx => hall x (by simp [hx])
    rw [processLines, processLine_ctx st l L hty hL]
    simp [ih _ hrest, lastCtxAfter, hL]

/-! ## Claims C1, C3, C4, C5: the edit translation on concrete inputs -/

/-- C1, counterexample: on source `"a\nb\nc\n"` with the diff changing
line 2 from `b` to `b2`, the translation produces exactly one
EditRecord with start_byte 2, old_end_byte 3 and start row 2 — but its
new_end_byte is 3, not 4: the added line `b2` carries no source line
number and is skipped, so the record's new range covers only the
removed entry's own one-byte text. -/
theorem c1_counterexample :
    deriveEdits exSource [exHunk] = .ok [exEdit] ∧ exEdit.new_end_byte ≠ 4 := by decide

/-- C1, amended: the end-to-end example yields exactly one EditRecord
with start_byte 2, old_end_byte 3, new_end_byte 3 and
start_position.row 2. -/
theorem c1_end_to_end :
    deriveEdits exSource [exHunk] = .ok [exEdit] ∧
    exEdit.start_byte = 2 ∧ exEdit.old_end_byte = 3 ∧ exEdit.new_end_byte = 3 ∧
    exEdit.start_position.row = 2 := by decide

/-- C3, counterexample: a hunk consisting of a single added entry (with
no source line number and no preceding removal) yields zero
EditRecords, not one: the added branch of the line loop has an empty
`else` arm, so nothing is anchored after `last_source_context_line`. -/
theorem c3_counterexample :
    deriveEdits "a\nb\n" [addHunk] = .ok [] ∧ ([] : List InputEdit).length ≠ 1 := by decide

/-- C3, amended: for every hunk whose line entries are one added
LineEntry carrying no source line number, translation succeeds and
emits no EditRecord at all. -/
theorem c3_pure_addition_skipped (source : String) (h : Hunk) (entry : Line)
    (hlines : h.lines = [entry]) (hty : entry.line_type = .added)
    (hsrc : entry.source_line_no = none) :
    deriveEdits source [h] = .ok [] := by
  have hskip := processLine_skip
    { counter := LineByteCounter.new source, last_source_context_line := h.source_start,
      edits := [] } entry (Or.inl hty) hsrc
  simp [deriveEdits, processHunks, processHunk, hlines, processLines, hskip]

/-- Witness for `c3_pure_addition_skipped` at the concrete input of the
counterexample. -/
theorem c3_pure_addition_skipped_witness :
    deriveEdits "a\nb\n" [addHunk] = .ok [] :=
  c3_pure_addition_skipped "a\nb\n" addHunk
    { line_type := .added, source_line_no := none, target_line_no := some 2,
      diff_line_no := 1, value := "x" } rfl rfl rfl

/-- C4: on an ordinary two-line deletion (context line 1, removals of
lines 2 and 3 of `"a\nb\nc\nd\n"`), the record for source line 3 is
built from the pair `(6, "d")` — the offset and text of line 4 — while
the byte offset of line 3 is 4: the uncached lookup path that resumes
from a non-empty cache advances one line too far.  On the three-line
source the same hunk even fails with the ran-out-of-lines error even
though line 3 exists. -/
theorem c4_wrong_line_fetched :
    deriveEdits delSource [delHunk] = .ok [exEdit, delEdit2] ∧
    delEdit2.start_byte = 6 ∧ delEdit2.old_end_byte = 7 ∧
    lineOffset (rustLines delSource) 3 = 4 ∧ (6 : Nat) ≠ 4 ∧
    deriveEdits delSourceShort [delHunk] =
      .error "Line counter could not iterate, ran out of lines" := by decide

/-- C5: two increasing lookups against one LineByteCounter over
`"aa\nb\nc\nd\n"` (line 2 with context 1, then line 3 with context 2).
The first returns the correct offset 3, but the second returns
`(7, "d")` — the offset of line 4 — although the sum of the byte
lengths of the lines preceding line 3, plus one newline each, is 5. -/
theorem c5_lookup_off_by_one :
    (do
      let r1 ← fetchLine (LineByteCounter.new "aa\nb\nc\nd\n") 1 2
      let r2 ← fetchLine r1.2 2 3
      pure (r1.1, r2.1) : Except String ((Nat × String) × (Nat × String))) =
      .ok ((3, "b"), (7, "d")) ∧
    lineOffset (rustLines "aa\nb\nc\nd\n") 2 = 3 ∧
    lineOffset (rustLines "aa\nb\nc\nd\n") 3 = 5 ∧ (7 : Nat) ≠ 5 := by decide

/-! ## Claims C8, C9: context entries and entries without line numbers -/

/-- C8: a context entry carrying a source line number updates
`last_source_context_line` to it and emits nothing; a hunk consisting
only of such entries yields zero EditRecords and leaves
`last_source_context_line` at the hunk's final declared source line;
and a context entry without a source line number fails the translation
with the missing-line-number error. -/
theorem c8_context_entries :
    (∀ (st : TransState) (line : Line) (L : Nat),
       line.line_type = .context → line.source_line_no = some L →
       processLine st line = .ok { st with last_source_context_line := L }) ∧
    (∀ (counter : LineByteCounter) (edits : List InputEdit) (h : Hunk)
       (pre : List Line) (lastL : Line) (L : Nat),
       h.lines = pre ++ [lastL] →
       (∀ l ∈ h.lines, l.line_type = .context ∧ l.source_line_no ≠ none) →
       lastL.source_line_no = some L →
       processHunk counter edits h =
         .ok { counter := counter, last_source_context_line := L, edits := edits }) ∧
    (∀ (st : TransState) (line : Line) (rest : List Line),
       line.line_type = .context → line.source_line_no = none →
       processLine st line = .error "Context line in patch requires source line" ∧
       processLines st (line :: rest) =
         .error "Context line in patch requires source line") := by
  refine ⟨processLine_ctx, ?_, ?_⟩
  · intro counter edits h pre lastL L hsplit hall hL
    rw [processHunk, processLines_ctx_only h.lines _ hall]
    simp [hsplit, lastCtxAfter_append, lastCtxAfter, hL]
  · intro st line rest hty hsrc
    have herr := processLine_ctx_missing st line hty hsrc
    exact ⟨herr, by simp [processLines, herr]⟩

/-- Witness for `c8_context_entries` on a two-entry context-only hunk. -/
theorem c8_context_entries_witness :
    processHunk (LineByteCounter.new "a\nb\n") []
      { source_start := 1,
        lines :=
         [{ line_type := .context, source_line_no := some 1, target_line_no := some 1,
            diff_line_no := 1, value := "a" },
          { line_type := .context, source_line_no := some 2, target_line_no := some 2,
            diff_line_no := 2, value := "b" }] } =
      .ok { counter := LineByteCounter.new "a\nb\n", last_source_context_line := 2,
            edits := [] } :=
  c8_context_entries.2.1 (LineByteCounter.new "a\nb\n") []
    { source_start := 1,
      lines :=
       [{ line_type := .context, source_line_no := some 1, target_line_no := some 1,
          diff_line_no := 1, value := "a" },
        { line_type := .context, source_line_no := some 2, target_line_no := some 2,
          diff_line_no := 2, value := "b" }] }
    [{ line_type := .context, source_line_no := some 1, target_line_no := some 1,
       diff_line_no := 1, value := "a" }]
    { line_type := .context, source_line_no := some 2, target_line_no := some 2,
      diff_line_no := 2, value := "b" } 2 rfl (by decide) rfl

/-- C9: an added or removed entry carrying no source line number is
skipped silently: the state — counter, `last_source_context_line` and
the edit list — is unchanged, no error is raised, and translation of
the remaining entries continues as if the entry were absent. -/
theorem c9_no_source_line_skipped :
    ∀ (st : TransState) (line : Line) (rest : List Line),
      (line.line_type = .added ∨ line.line_type = .removed) →
      line.source_line_no = none →
      processLine st line = .ok st ∧
      processLines st (line :: rest) = processLines st rest := by
  intro st line rest hty hsrc
  refine ⟨processLine_skip st line hty hsrc, ?_⟩
  simp [processLines, processLine_skip st line hty hsrc]

/-- Witness for `c9_no_source_line_skipped` on the added entry of the
end-to-end example. -/
theorem c9_no_source_line_skipped_witness :
    processLine { counter := LineByteCounter.new "a\nb\n", last_source_context_line := 1,
                  edits := [] }
      { line_type := .added, source_line_no := none, target_line_no := some 2,
        diff_line_no := 1, value := "x" } =
      .ok { counter := LineByteCounter.new "a\nb\n", last_source_context_line := 1,
            edits := [] } :=
  (c9_no_source_line_skipped
    { counter := LineByteCounter.new "a\nb\n", last_source_context_line := 1, edits := [] }
    { line_type := .added, source_line_no := none, target_line_no := some 2,
      diff_line_no := 1, value := "x" } [] (Or.inl rfl) rfl).1

/-! ## Helper lemmas about the per-file pipeline -/

theorem try_parse_patch_go_error (env : Env) :
    ∀ (pre post : List PatchedFile) (f : PatchedFile) (e : String),
      (∀ pf ∈ pre, ∃ d, Diff.from_patch_file env pf = .ok d) →
      Diff.from_patch_file env f = .error e →
      try_parse_patch_go env (pre ++ f :: post) = .error e := by
  intro pre
  induction pre with
  | nil => intro post f e _ hf; simp [try_parse_patch_go, hf]
  | cons p pre ih =>
    intro post f e hok hf
    obtain ⟨d, hd⟩ := hok p (by simp)
    have hrest := ih post f e (fun pf hpf => hok pf (by simp [hpf])) hf
    simp [try_parse_patch_go, hd, Diff.try_apply_edits, hrest]

theorem from_patch_file_parse (env : Env) (pf : PatchedFile) (d : Diff)
    (h : Diff.from_patch_file env pf = .ok d) :
    env.parseTree d.language d.source = .ok (some d.tree) := by
  simp only [Diff.from_patch_file] at h
  rcases hfs : env.fs (get_fs_file_path pf.source_file) with e | source <;>
    simp only [hfs] at h
  · cases h
  rcases hde : deriveEdits source pf.hunks with e | edits <;> simp only [hde] at h
  · cases h
  rcases hres : Grammars.try_get_language env.resolve (get_fs_file_path pf.source_file)
    with e | _ | lang <;> simp only [hres] at h
  · cases h
  · cases h
  rcases hpt : env.parseTree lang source with e | _ | tree <;> simp only [hpt] at h
  · cases h
  · cases h
  cases h
  simpa using hpt

theorem try_parse_patch_go_mem (env : Env) :
    ∀ (files : List PatchedFile) (diffs : List Diff),
      try_parse_patch_go env files = .ok diffs →
      ∀ d ∈ diffs, ∃ pf, pf ∈ files ∧ Diff.from_patch_file env pf = .ok d := by
  intro files
  induction files with
  | nil =>
    intro diffs h d hd
    simp only [try_parse_patch_go] at h
    cases h
    cases hd
  | cons pf rest ih =>
    intro diffs h d hd
    rcases hq : Diff.from_patch_file env pf with e | d0 <;>
      simp only [try_parse_patch_go, hq, Diff.try_apply_edits] at h
    · cases h
    rcases hr : try_parse_patch_go env rest with e | ds <;> rw [hr] at h
    · cases h
    cases h
    rcases List.mem_cons.mp hd with rfl | hd2
    · exact ⟨pf, by simp, hq⟩
    · obtain ⟨pf2, hpf2, hok2⟩ := ih ds hr d hd2
      exact ⟨pf2, by simp [hpf2], hok2⟩

/-! ## Claim C6: the first failing file aborts the whole run -/

/-- C6: when the grammars load and every file before `f` processes
successfully but `f` fails, the whole run returns exactly the error of
`f`; the result does not depend on the files after `f` (they are never
processed), and neither a graph nor a partial diff list is returned:
`DiffGraph::create` surfaces the same single error. -/
theorem c6_first_failure_aborts :
    ∀ (env : Env) (pre post post2 : List PatchedFile) (f : PatchedFile) (e : String),
      env.grammarsLoad = .ok () →
      (∀ pf ∈ pre, ∃ d, Diff.from_patch_file env pf = .ok d) →
      Diff.from_patch_file env f = .error e →
      try_parse_patch env (pre ++ f :: post) false = .error e ∧
      try_parse_patch env (pre ++ f :: post) false =
        try_parse_patch env (pre ++ f :: post2) false ∧
      DiffGraph.create env (pre ++ f :: post) false = .error e ∧
      (¬ ∃ ds, try_parse_patch env (pre ++ f :: post) false = .ok ds) := by
  intro env pre post post2 f e hg hok hf
  have h1 := try_parse_patch_go_error env pre post f e hok hf
  have h2 := try_parse_patch_go_error env pre post2 f e hok hf
  have hp : try_parse_patch env (pre ++ f :: post) false = .error e := by
    simp [try_parse_patch, hg, h1]
  refine ⟨hp, ?_, ?_, ?_⟩
  · simp [try_parse_patch, hg, h1, h2]
  · simp [DiffGraph.create, hp]
  · simp [hp]

/-- Witness for `c6_first_failure_aborts`: in `testEnv`, the second
file's source is missing and its error is the run's result. -/
theorem c6_first_failure_aborts_witness :
    try_parse_patch testEnv ([testFile] ++ testFileBad :: []) false = .error "missing file" :=
  (c6_first_failure_aborts testEnv [testFile] [] [] testFileBad "missing file" rfl
    (by intro pf hpf; simp at hpf; subst hpf; exact ⟨testDiff, by decide⟩)
    (by decide)).1

/-! ## Claim C7: language resolution -/

/-- C7: a path whose extension matches no discovered grammar resolves
to `none` and not to an error; a path whose extension has a registered
grammar resolves to that concrete language; and when resolution
returns `none` for a file of the diff, that file's processing fails
with an error, so no Diff is produced for it. -/
theorem c7_language_resolution :
    (∀ (grammars : List (String × Nat)) (path : String),
       (∀ g ∈ grammars, g.1 ≠ pathExtension path) →
       Grammars.try_get_language (loaderResolve grammars) path = .ok none) ∧
    (∀ (grammars : List (String × Nat)) (path : String) (g : String × Nat),
       grammars.find? (fun x => x.1 == pathExtension path) = some g →
       Grammars.try_get_language (loaderResolve grammars) path = .ok (some g.2)) ∧
    (∀ (env : Env) (pf : PatchedFile) (source : String) (edits : List InputEdit),
       env.fs (get_fs_file_path pf.source_file) = .ok source →
       deriveEdits source pf.hunks = .ok edits →
       env.resolve (get_fs_file_path pf.source_file) = .ok none →
       Diff.from_patch_file env pf =
         .error ("Unable to determine language using tree-sitter parsers for file "
           ++ get_fs_file_path pf.source_file)) := by
  refine ⟨?_, ?_, ?_⟩
  · intro grammars path hno
    have hfind : grammars.find? (fun x => x.1 == pathExtension path) = none := by
      apply List.find?_eq_none.mpr
      intro x hx
      simp [hno x hx]
    simp [Grammars.try_get_language, loaderResolve, hfind]
  · intro grammars path g hfind
    simp [Grammars.try_get_language, loaderResolve, hfind]
  · intro env pf source edits hfs hde hres
    simp [Diff.from_patch_file, hfs, hde, Grammars.try_get_language, hres]

/-- Witness for `c7_language_resolution`: extension `py` is unmatched
and yields `none`; extension `c` yields language 5; and the file
`a/m.py` fails processing in `testEnv`. -/
theorem c7_language_resolution_witness :
    Grammars.try_get_language (loaderResolve [("c", 5)]) "m.py" = .ok none ∧
    Grammars.try_get_language (loaderResolve [("c", 5)]) "m.c" = .ok (some 5) ∧
    Diff.from_patch_file testEnv testFilePy =
      .error ("Unable to determine language using tree-sitter parsers for file "
        ++ get_fs_file_path testFilePy.source_file) :=
  ⟨c7_language_resolution.1 [("c", 5)] "m.py" (by decide),
   c7_language_resolution.2.1 [("c", 5)] "m.c" ("c", 5) (by decide),
   c7_language_resolution.2.2 testEnv testFilePy exSource [] (by decide) (by decide) (by decide)⟩

/-! ## Helper lemmas for the traversal (claim C2) -/

theorem preorderInfo_eq (p : List Nat) (t : RTree) :
    preorderInfo p t =
      { id := p, kind_id := t.kind_id, range_start := t.range_start,
        range_stop := t.range_stop } :: preorderInfoList p 0 t.children := by
  cases t
  rfl

theorem pathOfFrames_cons (f : Frame) (fs : List Frame) :
    pathOfFrames (f :: fs) = pathOfFrames fs ++ [f.leftRev.length] := by
  simp [pathOfFrames]

theorem rem_eq (c : Cursor) :
    c.rem = c.info :: (preorderInfoList c.path 0 c.focus.children ++ restAfter c.frames) := by
  rw [Cursor.rem, preorderInfo_eq]
  rfl

mutual

theorem preorderInfo_length (p : List Nat) (t : RTree) :
    (preorderInfo p t).length = t.size := by
  cases t with
  | node k s e cs =>
    simp [preorderInfo, RTree.size, preorderInfoList_length p 0 cs, Nat.add_comm]

theorem preorderInfoList_length (p : List Nat) (i : Nat) (ts : List RTree) :
    (preorderInfoList p i ts).length = RTree.sizeList ts := by
  cases ts with
  | nil => simp [preorderInfoList, RTree.sizeList]
  | cons t ts =>
    simp [preorderInfoList, RTree.sizeList, preorderInfo_length (p ++ [i]) t,
      preorderInfoList_length p (i + 1) ts]

end

theorem size_pos (t : RTree) : 1 ≤ t.size := by
  cases t with
  | node k s e cs => simp [RTree.size]

mutual

theorem preorderInfo_prefix (p : List Nat) (t : RTree) :
    ∀ q ∈ preorderInfo p t, p <+: q.id := by
  cases t with
  | node k s e cs =>
    intro q hq
    rw [preorderInfo] at hq
    rcases List.mem_cons.mp hq with rfl | hq2
    · exact List.prefix_refl p
    · obtain ⟨j, r, _, hid⟩ := preorderInfoList_shape p 0 cs q hq2
      exact hid ▸ ⟨j :: r, rfl⟩

theorem preorderInfoList_shape (p : List Nat) (i : Nat) (ts : List RTree) :
    ∀ q ∈ preorderInfoList p i ts, ∃ j r, i ≤ j ∧ q.id = p ++ j :: r := by
  cases ts with
  | nil => intro q hq; rw [preorderInfoList] at hq; cases hq
  | cons t ts =>
    intro q hq
    rw [preorderInfoList] at hq
    rcases List.mem_append.mp hq with hq2 | hq2
    · obtain ⟨s, hs⟩ := preorderInfo_prefix (p ++ [i]) t q hq2
      exact ⟨i, s, Nat.le_refl i, by rw [← hs]; simp⟩
    · obtain ⟨j, r, hj, hid⟩ := preorderInfoList_shape p (i + 1) ts q hq2
      exact ⟨j, r, Nat.le_of_succ_le hj, hid⟩

end

mutual

theorem preorderInfo_nodup (p : List Nat) (t : RTree) :
    ((preorderInfo p t).map NodeInfo.id).Nodup := by
  cases t with
  | node k s e cs =>
    rw [preorderInfo]
    simp only [List.map_cons, List.nodup_cons]
    constructor
    · intro hmem
      obtain ⟨q, hq, hid⟩ := List.mem_map.mp hmem
      obtain ⟨j, r, _, hshape⟩ := preorderInfoList_shape p 0 cs q hq
      rw [hshape] at hid
      have := congrArg List.length hid
      simp at this
    · exact preorderInfoList_nodup p 0 cs

theorem preorderInfoList_nodup (p : List Nat) (i : Nat) (ts : List RTree) :
    ((preorderInfoList p i ts).map NodeInfo.id).Nodup := by
  cases ts with
  | nil => rw [preorderInfoList]; simp
  | cons t ts =>
    rw [preorderInfoList]
    rw [List.map_append]
    apply List.Nodup.append (preorderInfo_nodup (p ++ [i]) t) (preorderInfoList_nodup p (i + 1) ts)
    intro a ha1 ha2
    obtain ⟨q1, hq1, hid1⟩ := List.mem_map.mp ha1
    obtain ⟨q2, hq2, hid2⟩ := List.mem_map.mp ha2
    obtain ⟨s, hs⟩ := preorderInfo_prefix (p ++ [i]) t q1 hq1
    obtain ⟨j, r, hj, hshape⟩ := preorderInfoList_shape p (i + 1) ts q2 hq2
    rw [hid1, ← hid2, hshape] at hs
    rw [List.append_assoc] at hs
    have hcancel := List.append_cancel_left hs
    simp only [List.singleton_append] at hcancel
    injection hcancel with h1 _
    omega

end

theorem next_first_child (c : Cursor) (k s e : Nat) (ch : RTree) (chs : List RTree)
    (hf : c.focus = .node k s e (ch :: chs)) :
    ∃ c2 : Cursor, TreeIter.next ⟨c, false⟩ = some ((c.info, c2.info), ⟨c2, false⟩) ∧
      c2.rebuild = c.rebuild ∧ c.rem = c.info :: c2.rem := by
  refine ⟨⟨ch, ⟨k, s, e, [], chs⟩ :: c.frames⟩, ?_, ?_, ?_⟩
  · simp [TreeIter.next, Cursor.goto_first_child, hf]
  · simp [Cursor.rebuild, hf, rebuildAux]
  · simp [Cursor.rem, Cursor.info, Cursor.path, hf, preorderInfo, preorderInfoList,
      restAfter, pathOfFrames_cons, RTree.kind_id, RTree.range_start, RTree.range_stop,
      List.append_assoc]

theorem next_new_sibling (c : Cursor) (k s e : Nat) (f : Frame) (fs : List Frame)
    (x : RTree) (xs : List RTree)
    (hf : c.focus = .node k s e []) (hfr : c.frames = f :: fs) (hr : f.right = x :: xs) :
    ∃ c2 : Cursor, TreeIter.next ⟨c, false⟩ = some ((c.info, c2.info), ⟨c2, false⟩) ∧
      c2.rebuild = c.rebuild ∧ c.rem = c.info :: c2.rem := by
  refine ⟨⟨x, ⟨f.kind_id, f.range_start, f.range_stop, c.focus :: f.leftRev, xs⟩ :: fs⟩,
    ?_, ?_, ?_⟩
  · simp [TreeIter.next, Cursor.goto_first_child, hf, Cursor.goto_next_sibling, hfr, hr]
  · simp [Cursor.rebuild, rebuildAux, hfr, hr, List.append_assoc]
  · simp [Cursor.rem, Cursor.info, Cursor.path, hf, hfr, hr, preorderInfo, preorderInfoList,
      restAfter, pathOfFrames_cons, RTree.kind_id, RTree.range_start, RTree.range_stop,
      List.append_assoc]

theorem climbAux_spec (fs : List Frame) :
    ∀ (t : RTree) (f : Frame), f.right = [] →
    (restAfter (f :: fs) = [] ∧
       climbAux t (f :: fs) = (⟨rebuildAux t (f :: fs), []⟩, true)) ∨
    (∃ c2 : Cursor, climbAux t (f :: fs) = (c2, false) ∧
       c2.rem = restAfter (f :: fs) ∧ c2.rebuild = rebuildAux t (f :: fs)) := by
  induction fs with
  | nil =>
    intro t f hr
    left
    constructor
    · simp [restAfter, hr, preorderInfoList]
    · simp [climbAux, Cursor.goto_next_sibling, rebuildAux]
  | cons g gs ih =>
    intro t f hr
    cases hgr : g.right with
    | cons x xs =>
      right
      refine ⟨⟨x, ⟨g.kind_id, g.range_start, g.range_stop,
        (.node f.kind_id f.range_start f.range_stop (f.leftRev.reverse ++ t :: f.right))
          :: g.leftRev, xs⟩ :: gs⟩, ?_, ?_, ?_⟩
      · simp [climbAux, Cursor.goto_next_sibling, hgr]
      · simp [Cursor.rem, Cursor.info, Cursor.path, restAfter, hr, hgr, preorderInfo,
          preorderInfoList, pathOfFrames_cons, List.append_assoc]
      · simp [Cursor.rebuild, rebuildAux, hgr, List.append_assoc]
    | nil =>
      have ihres := ih (.node f.kind_id f.range_start f.range_stop
        (f.leftRev.reverse ++ t :: f.right)) g hgr
      have hstep : climbAux t (f :: g :: gs) =
          climbAux (.node f.kind_id f.range_start f.range_stop
            (f.leftRev.reverse ++ t :: f.right)) (g :: gs) := by
        simp [climbAux, Cursor.goto_next_sibling, hgr]
      have hrest : restAfter (f :: g :: gs) = restAfter (g :: gs) := by
        simp [restAfter, hr, preorderInfoList]
      have hre : rebuildAux t (f :: g :: gs) =
          rebuildAux (.node f.kind_id f.range_start f.range_stop
            (f.leftRev.reverse ++ t :: f.right)) (g :: gs) := rfl
      rcases ihres with ⟨h1, h2⟩ | ⟨c2, h1, h2, h3⟩
      · left
        exact ⟨by rw [hrest, h1], by rw [hstep, h2, ← hre]⟩
      · right
        exact ⟨c2, by rw [hstep, h1], by rw [h2, hrest], by rw [h3, ← hre]⟩

theorem next_climb (c : Cursor) (k s e : Nat)
    (hf : c.focus = .node k s e []) (hns : c.goto_next_sibling = none) :
    (c.rem = [c.info] ∧
       TreeIter.next ⟨c, false⟩ =
         some ((c.info, (Cursor.root c.rebuild).info), ⟨Cursor.root c.rebuild, true⟩)) ∨
    (∃ c2 : Cursor, TreeIter.next ⟨c, false⟩ = some ((c.info, c2.info), ⟨c2, false⟩) ∧
       c2.rebuild = c.rebuild ∧ c.rem = c.info :: c2.rem) := by
  have hnext : TreeIter.next ⟨c, false⟩ =
      some ((c.info, (c.climb).1.info), ⟨(c.climb).1, (c.climb).2⟩) := by
    simp [TreeIter.next, Cursor.goto_first_child, hf, hns]
  cases hframes : c.frames with
  | nil =>
    left
    have hclimb : c.climb = (⟨c.focus, []⟩, true) := by
      simp [Cursor.climb, hframes, climbAux]
    have hroot : Cursor.root c.rebuild = ⟨c.focus, []⟩ := by
      simp [Cursor.root, Cursor.rebuild, hframes, rebuildAux]
    constructor
    · simp [Cursor.rem, Cursor.info, hf, preorderInfo, preorderInfoList, restAfter, hframes,
        RTree.kind_id, RTree.range_start, RTree.range_stop]
    · rw [hnext, hclimb, hroot]
  | cons f fs =>
    have hfr : f.right = [] := by
      rcases hr : f.right with _ | ⟨x, xs⟩
      · rfl
      · simp only [Cursor.goto_next_sibling, hframes, hr] at hns
        cases hns
    rcases climbAux_spec fs c.focus f hfr with ⟨h1, h2⟩ | ⟨c2, h1, h2, h3⟩
    · left
      have hclimb : c.climb = (⟨rebuildAux c.focus (f :: fs), []⟩, true) := by
        rw [Cursor.climb, hframes]; exact h2
      have hroot : Cursor.root c.rebuild = ⟨rebuildAux c.focus (f :: fs), []⟩ := by
        simp [Cursor.root, Cursor.rebuild, hframes]
      constructor
      · rw [Cursor.rem]
        rw [show c.frames = f :: fs from hframes, h1]
        simp [Cursor.info, hf, preorderInfo, preorderInfoList,
          RTree.kind_id, RTree.range_start, RTree.range_stop]
      · rw [hnext, hclimb, hroot]
    · right
      have hclimb : c.climb = (c2, false) := by rw [Cursor.climb, hframes]; exact h1
      refine ⟨c2, ?_, ?_, ?_⟩
      · rw [hnext, hclimb]
      · rw [h3, Cursor.rebuild, hframes]
      · rw [Cursor.rem]
        rw [show c.frames = f :: fs from hframes, h2]
        simp [Cursor.info, hf, preorderInfo, preorderInfoList,
          RTree.kind_id, RTree.range_start, RTree.range_stop]

theorem next_ok (c : Cursor) :
    (c.rem = [c.info] ∧
       TreeIter.next ⟨c, false⟩ =
         some ((c.info, (Cursor.root c.rebuild).info), ⟨Cursor.root c.rebuild, true⟩)) ∨
    (∃ c2 : Cursor, TreeIter.next ⟨c, false⟩ = some ((c.info, c2.info), ⟨c2, false⟩) ∧
       c2.rebuild = c.rebuild ∧ c.rem = c.info :: c2.rem) := by
  cases hf : c.focus with
  | node k s e cs =>
    cases cs with
    | cons ch chs => exact .inr (next_first_child c k s e ch chs hf)
    | nil =>
      rcases hns : c.goto_next_sibling with _ | c2
      · exact next_climb c k s e hf hns
      · rcases hframes : c.frames with _ | ⟨f, fs⟩
        · simp only [Cursor.goto_next_sibling, hframes] at hns
          cases hns
        rcases hr : f.right with _ | ⟨x, xs⟩
        · simp only [Cursor.goto_next_sibling, hframes, hr] at hns
          cases hns
        · exact .inr (next_new_sibling c k s e f fs x xs hf hframes hr)

theorem run_succ (fuel : Nat) (it : TreeIter) :
    TreeIter.run (fuel + 1) it =
      match it.next with
      | none => []
      | some (pair, it2) => pair :: TreeIter.run fuel it2 := rfl

theorem run_next_some (fuel : Nat) (it : TreeIter) (pair : NodeInfo × NodeInfo)
    (it2 : TreeIter) (h : it.next = some (pair, it2)) :
    TreeIter.run (fuel + 1) it = pair :: TreeIter.run fuel it2 := by
  rw [run_succ, h]

theorem run_stop (fuel : Nat) (it : TreeIter) (h : it.traversed = true) :
    TreeIter.run fuel it = [] := by
  cases fuel with
  | zero => rfl
  | succ n =>
    rw [run_succ]
    simp [TreeIter.next, h]

theorem run_spec : ∀ (n : Nat) (c : Cursor), c.rem.length = n + 1 →
    TreeIter.run (n + 2) ⟨c, false⟩ =
      c.rem.zip (c.rem.tail ++ [(Cursor.root c.rebuild).info]) := by
  intro n
  induction n with
  | zero =>
    intro c hlen
    rcases next_ok c with ⟨h1, h2⟩ | ⟨c2, h1, h2, h3⟩
    · rw [show (0 : Nat) + 2 = 1 + 1 from rfl, run_next_some 1 _ _ _ h2,
        run_stop 1 _ rfl, h1]
      simp
    · exfalso
      rw [h3, rem_eq c2] at hlen
      simp only [List.length_cons] at hlen
      omega
  | succ n ih =>
    intro c hlen
    rcases next_ok c with ⟨h1, _⟩ | ⟨c2, h1, h2, h3⟩
    · exfalso
      rw [h1] at hlen
      simp only [List.length_cons, List.length_nil] at hlen
      omega
    · have hlen2 : c2.rem.length = n + 1 := by
        rw [h3] at hlen
        simpa using hlen
      rw [show n + 1 + 2 = (n + 2) + 1 from rfl, run_next_some (n + 2) _ _ _ h1,
        ih c2 hlen2, h2, h3]
      obtain ⟨tl, htl⟩ : ∃ tl, c2.rem = c2.info :: tl := ⟨_, rem_eq c2⟩
      rw [htl]
      simp

theorem run_root (t : RTree) :
    TreeIter.run (t.size + 1) (TreeIter.new t) = traversalPairs t := by
  have hrem : (Cursor.root t).rem = preorderInfo [] t := by
    simp [Cursor.rem, Cursor.path, pathOfFrames, restAfter, Cursor.root]
  have hlen : (Cursor.root t).rem.length = (t.size - 1) + 1 := by
    rw [hrem, preorderInfo_length]
    have := size_pos t
    omega
  have hrun := run_spec (t.size - 1) (Cursor.root t) hlen
  have hfuel : t.size + 1 = (t.size - 1) + 2 := by
    have := size_pos t
    omega
  have hrebuild : (Cursor.root t).rebuild = t := rfl
  rw [show TreeIter.new t = ⟨Cursor.root t, false⟩ from rfl, hfuel, hrun, hrebuild, hrem,
    traversalPairs]

theorem add_node_edges (g : Graph) (a : List Nat) : (g.add_node a).edges = g.edges := by
  rw [Graph.add_node]
  split <;> rfl

theorem add_node_mem (g : Graph) (x a : List Nat) :
    x ∈ (g.add_node a).nodes ↔ x ∈ g.nodes ∨ x = a := by
  rw [Graph.add_node]
  by_cases h : a ∈ g.nodes
  · rw [if_pos h]
    constructor
    · exact Or.inl
    · rintro (hx | rfl)
      · exact hx
      · exact h
  · rw [if_neg h]
    simp

theorem add_node_nodup (g : Graph) (a : List Nat) (h : g.nodes.Nodup) :
    (g.add_node a).nodes.Nodup := by
  rw [Graph.add_node]
  by_cases ha : a ∈ g.nodes
  · rw [if_pos ha]; exact h
  · rw [if_neg ha]
    refine List.Nodup.append h (List.nodup_singleton a) ?_
    intro x hx hx2
    simp only [List.mem_singleton] at hx2
    subst hx2
    exact ha hx

theorem add_edge_nodes (g : Graph) (a b : List Nat) (e : GEdge) :
    (g.add_edge a b e).nodes = ((g.add_node a).add_node b).nodes := by
  simp only [Graph.add_edge]
  split <;> rfl

theorem add_edge_mem (g : Graph) (a b : List Nat) (e : GEdge) (x : List Nat) :
    x ∈ (g.add_edge a b e).nodes ↔ x ∈ g.nodes ∨ x = a ∨ x = b := by
  rw [add_edge_nodes, add_node_mem, add_node_mem, or_assoc]

theorem add_edge_nodup (g : Graph) (a b : List Nat) (e : GEdge) (h : g.nodes.Nodup) :
    (g.add_edge a b e).nodes.Nodup := by
  rw [add_edge_nodes]
  exact add_node_nodup _ _ (add_node_nodup _ _ h)

theorem add_edge_keys (g : Graph) (a b : List Nat) (e : GEdge)
    (h : (a, b) ∉ g.edges.map Prod.fst) :
    (g.add_edge a b e).edges.map Prod.fst = g.edges.map Prod.fst ++ [(a, b)] := by
  simp only [Graph.add_edge, add_node_edges]
  rw [if_neg h]
  simp

theorem fold_keys (ps : List (NodeInfo × NodeInfo)) :
    ∀ g : Graph,
      (ps.map (fun q => (q.1.id, q.2.id))).Nodup →
      (∀ q ∈ ps, (q.1.id, q.2.id) ∉ g.edges.map Prod.fst) →
      (ps.foldl (fun g p => Graph.add_edge g p.1.id p.2.id
          { from_node := p.1, to_node := p.2 }) g).edges.map Prod.fst =
        g.edges.map Prod.fst ++ ps.map (fun q => (q.1.id, q.2.id)) := by
  induction ps with
  | nil => intro g _ _; simp
  | cons p rest ih =>
    intro g hnd hfresh
    rw [List.map_cons, List.nodup_cons] at hnd
    obtain ⟨hhead, htail⟩ := hnd
    have hp := hfresh p (List.mem_cons_self p rest)
    have hkeys := add_edge_keys g p.1.id p.2.id { from_node := p.1, to_node := p.2 } hp
    have hfresh2 : ∀ q ∈ rest, (q.1.id, q.2.id) ∉
        (Graph.add_edge g p.1.id p.2.id
          { from_node := p.1, to_node := p.2 }).edges.map Prod.fst := by
      intro q hq
      rw [hkeys]
      simp only [List.mem_append, List.mem_singleton]
      rintro (hin | heq)
      · exact hfresh q (List.mem_cons_of_mem p hq) hin
      · exact hhead (by rw [← heq]; exact List.mem_map_of_mem _ hq)
    simp only [List.foldl_cons]
    rw [ih _ htail hfresh2, hkeys]
    simp

theorem fold_nodes_mem (ps : List (NodeInfo × NodeInfo)) :
    ∀ (g : Graph) (x : List Nat),
      x ∈ (ps.foldl (fun g p => Graph.add_edge g p.1.id p.2.id
          { from_node := p.1, to_node := p.2 }) g).nodes ↔
        x ∈ g.nodes ∨ ∃ q ∈ ps, x = q.1.id ∨ x = q.2.id := by
  induction ps with
  | nil => intro g x; simp
  | cons p rest ih =>
    intro g x
    simp only [List.foldl_cons]
    rw [ih]
    rw [add_edge_mem]
    simp only [List.mem_cons]
    constructor
    · rintro ((hg | ha | hb) | ⟨q, hq, hx⟩)
      · exact Or.inl hg
      · exact Or.inr ⟨p, Or.inl rfl, Or.inl ha⟩
      · exact Or.inr ⟨p, Or.inl rfl, Or.inr hb⟩
      · exact Or.inr ⟨q, Or.inr hq, hx⟩
    · rintro (hg | ⟨q, hq | hq, hx⟩)
      · exact Or.inl (Or.inl hg)
      · subst hq
        rcases hx with hx | hx
        · exact Or.inl (Or.inr (Or.inl hx))
        · exact Or.inl (Or.inr (Or.inr hx))
      · exact Or.inr ⟨q, hq, hx⟩

theorem fold_nodes_nodup (ps : List (NodeInfo × NodeInfo)) :
    ∀ g : Graph, g.nodes.Nodup →
      (ps.foldl (fun g p => Graph.add_edge g p.1.id p.2.id
          { from_node := p.1, to_node := p.2 }) g).nodes.Nodup := by
  induction ps with
  | nil => intro g h; exact h
  | cons p rest ih =>
    intro g h
    simp only [List.foldl_cons]
    exact ih _ (add_edge_nodup _ _ _ _ h)

theorem root_info_head (t : RTree) :
    (Cursor.root t).info ∈ preorderInfo [] t := by
  cases t
  rw [preorderInfo_eq]
  exact List.mem_cons_self _ _

theorem graphOfTree_spec (t : RTree) :
    (graphOfTree Graph.empty t).edges.map Prod.fst =
      (traversalPairs t).map (fun q => (q.1.id, q.2.id)) ∧
    (graphOfTree Graph.empty t).edge_count = t.size ∧
    (graphOfTree Graph.empty t).node_count = t.size ∧
    (graphOfTree Graph.empty t).nodes.Nodup ∧
    (∀ x, x ∈ (graphOfTree Graph.empty t).nodes ↔
      x ∈ (preorderInfo [] t).map NodeInfo.id) := by
  have hlen0 : 1 ≤ (preorderInfo [] t).length := by
    rw [preorderInfo_length]
    exact size_pos t
  have hlenzip : (preorderInfo [] t).length ≤
      ((preorderInfo [] t).tail ++ [(Cursor.root t).info]).length := by
    simp only [List.length_append, List.length_tail, List.length_cons, List.length_nil]
    omega
  have hfst : (traversalPairs t).map Prod.fst = preorderInfo [] t := by
    rw [traversalPairs]
    exact List.map_fst_zip _ _ hlenzip
  have hplen : (traversalPairs t).length = t.size := by
    rw [← preorderInfo_length [] t, ← hfst, List.length_map]
  have hkeyid : ((traversalPairs t).map (fun q => (q.1.id, q.2.id))).map Prod.fst =
      (preorderInfo [] t).map NodeInfo.id := by
    rw [List.map_map, show (Prod.fst ∘ fun q : NodeInfo × NodeInfo => (q.1.id, q.2.id)) =
      (fun q : NodeInfo × NodeInfo => q.1.id) from rfl]
    rw [show (fun q : NodeInfo × NodeInfo => q.1.id) =
      (NodeInfo.id ∘ Prod.fst) from rfl]
    rw [← List.map_map, hfst]
  have hknd : ((traversalPairs t).map (fun q => (q.1.id, q.2.id))).Nodup := by
    apply List.Nodup.of_map Prod.fst
    rw [hkeyid]
    exact preorderInfo_nodup [] t
  have hgraph : graphOfTree Graph.empty t =
      (traversalPairs t).foldl (fun g p => Graph.add_edge g p.1.id p.2.id
        { from_node := p.1, to_node := p.2 }) Graph.empty := by
    rw [graphOfTree, run_root]
  have hkeys := fold_keys (traversalPairs t) Graph.empty hknd
    (by intro q hq h; simp [Graph.empty] at h)
  have hmem : ∀ x, x ∈ (graphOfTree Graph.empty t).nodes ↔
      x ∈ (preorderInfo [] t).map NodeInfo.id := by
    intro x
    rw [hgraph, fold_nodes_mem]
    simp only [Graph.empty, List.not_mem_nil, false_or]
    constructor
    · rintro ⟨q, hq, hx | hx⟩
      · have := (List.of_mem_zip (by rw [traversalPairs] at hq; exact hq)).1
        exact hx ▸ List.mem_map_of_mem _ this
      · have h2 := (List.of_mem_zip (by rw [traversalPairs] at hq; exact hq)).2
        rcases List.mem_append.mp h2 with h3 | h3
        · exact hx ▸ List.mem_map_of_mem _ (List.mem_of_mem_tail h3)
        · simp only [List.mem_singleton] at h3
          rw [hx, h3]
          exact List.mem_map_of_mem _ (root_info_head t)
    · intro hx
      obtain ⟨q0, hq0, hid⟩ := List.mem_map.mp hx
      have : q0 ∈ (traversalPairs t).map Prod.fst := by rw [hfst]; exact hq0
      obtain ⟨q, hq, hq1⟩ := List.mem_map.mp this
      exact ⟨q, hq, Or.inl (by rw [← hid, ← hq1])⟩
  refine ⟨?_, ?_, ?_, ?_, hmem⟩
  · rw [hgraph, hkeys]
    simp [Graph.empty]
  · have hlen : ((graphOfTree Graph.empty t).edges.map Prod.fst).length =
        ((traversalPairs t).map (fun q => (q.1.id, q.2.id))).length := by
      rw [hgraph, hkeys]
      simp [Graph.empty]
    rw [List.length_map, List.length_map, hplen] at hlen
    exact hlen
  · have hnodup : (graphOfTree Graph.empty t).nodes.Nodup := by
      rw [hgraph]
      exact fold_nodes_nodup _ _ (by simp [Graph.empty])
    have hperm : List.Perm (graphOfTree Graph.empty t).nodes
        ((preorderInfo [] t).map NodeInfo.id) := by
      rw [List.perm_ext_iff_of_nodup hnodup (preorderInfo_nodup [] t)]
      exact hmem
    rw [Graph.node_count, hperm.length_eq, List.length_map, preorderInfo_length]
  · rw [hgraph]
    exact fold_nodes_nodup _ _ (by simp [Graph.empty])

/-! ## Claim C2: shape of the traversal graph -/

/-- C2, counterexample: on a three-node tree (a root with two leaf
children) the builder records 3 nodes but emits 3 edges, not
N − 1 = 2: the relation callback also fires on the last visited node,
after the cursor has climbed back to the root, adding an edge from the
last pre-order node to the root. -/
theorem c2_counterexample :
    testTree.size = 3 ∧
    (graphOfTree Graph.empty testTree).node_count = 3 ∧
    (graphOfTree Graph.empty testTree).edge_count = 3 ∧
    (3 : Nat) ≠ 3 - 1 := by decide

/-- C2, amended: for every syntax tree with N ≥ 1 nodes, the explicit
cursor walk visits exactly N nodes — the pre-order sequence — records
each visited node exactly once in the graph (the node keys are exactly
the pre-order node ids, without duplicates), and emits exactly N
directed edges, not N − 1: for each of the first N − 1 visited nodes
the edge goes to its pre-order successor (first child, else next
sibling of the nearest ancestor that has one), and the callback fires
once more on the last visited node with the cursor back at the root,
adding a final edge from the last pre-order node to the root (a
self-loop when N = 1). -/
theorem c2_traversal_graph (t : RTree) (N : Nat) (hN : N = t.size) (_hpos : 1 ≤ N) :
    (TreeIter.run (t.size + 1) (TreeIter.new t)).map Prod.fst = preorderInfo [] t ∧
    (TreeIter.run (t.size + 1) (TreeIter.new t)).length = N ∧
    TreeIter.run (t.size + 1) (TreeIter.new t) =
      (preorderInfo [] t).zip ((preorderInfo [] t).tail ++ [(Cursor.root t).info]) ∧
    (graphOfTree Graph.empty t).node_count = N ∧
    (graphOfTree Graph.empty t).nodes.Nodup ∧
    (∀ x, x ∈ (graphOfTree Graph.empty t).nodes ↔
      x ∈ (preorderInfo [] t).map NodeInfo.id) ∧
    (graphOfTree Graph.empty t).edge_count = N ∧
    (graphOfTree Graph.empty t).edges.map Prod.fst =
      ((preorderInfo [] t).zip ((preorderInfo [] t).tail ++ [(Cursor.root t).info])).map
        (fun q => (q.1.id, q.2.id)) := by
  obtain ⟨h1, h2, h3, h4, h5⟩ := graphOfTree_spec t
  subst hN
  have hrun := run_root t
  have hlenzip : (preorderInfo [] t).length ≤
      ((preorderInfo [] t).tail ++ [(Cursor.root t).info]).length := by
    simp only [List.length_append, List.length_tail, List.length_cons, List.length_nil]
    omega
  have hfst : (TreeIter.run (t.size + 1) (TreeIter.new t)).map Prod.fst =
      preorderInfo [] t := by
    rw [hrun, traversalPairs]
    exact List.map_fst_zip _ _ hlenzip
  refine ⟨hfst, ?_, ?_, h3, h4, h5, h2, ?_⟩
  · have hl : (TreeIter.run (t.size + 1) (TreeIter.new t)).length =
        ((TreeIter.run (t.size + 1) (TreeIter.new t)).map Prod.fst).length := by
      rw [List.length_map]
    rw [hl, hfst, preorderInfo_length]
  · rw [hrun, traversalPairs]
  · rw [traversalPairs] at h1
    exact h1

/-- Witness for `c2_traversal_graph` on the three-node tree. -/
theorem c2_traversal_graph_witness :
    (TreeIter.run (testTree.size + 1) (TreeIter.new testTree)).map Prod.fst =
      preorderInfo [] testTree ∧
    (TreeIter.run (testTree.size + 1) (TreeIter.new testTree)).length = 3 ∧
    TreeIter.run (testTree.size + 1) (TreeIter.new testTree) =
      (preorderInfo [] testTree).zip
        ((preorderInfo [] testTree).tail ++ [(Cursor.root testTree).info]) ∧
    (graphOfTree Graph.empty testTree).node_count = 3 ∧
    (graphOfTree Graph.empty testTree).nodes.Nodup ∧
    (∀ x, x ∈ (graphOfTree Graph.empty testTree).nodes ↔
      x ∈ (preorderInfo [] testTree).map NodeInfo.id) ∧
    (graphOfTree Graph.empty testTree).edge_count = 3 ∧
    (graphOfTree Graph.empty testTree).edges.map Prod.fst =
      ((preorderInfo [] testTree).zip
        ((preorderInfo [] testTree).tail ++ [(Cursor.root testTree).info])).map
          (fun q => (q.1.id, q.2.id)) :=
  c2_traversal_graph testTree 3 (by decide) (by decide)

/-! ## Claim C10: the stored tree is never edited -/

/-- C10: every diff of a successful run was produced by
`from_patch_file`, so the tree it stores is byte-for-byte the tree of
the original parse; applying its edits folds `Tree::edit` over a clone
strictly in recorded list order and leaves the stored diff unchanged —
the caller receives the unedited tree with the full ordered edit
list. -/
theorem c10_tree_unedited :
    ∀ (env : Env) (files : List PatchedFile) (diffs : List Diff),
      try_parse_patch env files false = .ok diffs →
      ∀ d ∈ diffs, ∃ pf, pf ∈ files ∧
        Diff.from_patch_file env pf = .ok d ∧
        env.parseTree d.language d.source = .ok (some d.tree) ∧
        Diff.try_apply_edits env d =
          .ok (d.edits.foldl (fun t e => env.treeEdit t e) d.tree, d) := by
  intro env files diffs h d hd
  rcases hg : env.grammarsLoad with e | u <;> simp only [try_parse_patch, hg] at h
  · cases h
  have hgo : try_parse_patch_go env files = .ok diffs := by
    simpa using h
  obtain ⟨pf, hpf, hok⟩ := try_parse_patch_go_mem env files diffs hgo d hd
  exact ⟨pf, hpf, hok, from_patch_file_parse env pf d hok, rfl⟩

/-- Witness for `c10_tree_unedited` on the one-file run of `testEnv`. -/
theorem c10_tree_unedited_witness :
    ∃ pf, pf ∈ [testFile] ∧
      Diff.from_patch_file testEnv pf = .ok testDiff ∧
      testEnv.parseTree testDiff.language testDiff.source = .ok (some testDiff.tree) ∧
      Diff.try_apply_edits testEnv testDiff =
        .ok (testDiff.edits.foldl (fun t e => testEnv.treeEdit t e) testDiff.tree, testDiff) :=
  c10_tree_unedited testEnv [testFile] [testDiff] (by decide) testDiff (by simp)

end Diffgraph
